import Mathlib

/-!
Verification of the Bug Byte puzzle solver (src/main.py): a CP-SAT model that
assigns the weights 1..24 to the 24 edges of a fixed 18-vertex graph, plus the
helper routines `find_paths`, `dedup_paths`, `get_max_pathlen` and the
solution callback that decodes a shortest-path message from each solution.

The Python source is embedded shallowly: graphs are a vertex count plus an
edge list, the recursive path enumerator is translated verbatim (with a
well-founded termination measure), and the external igraph shortest-path call
used by the decoder is modelled as a deterministic minimum-weight selection
over the enumerated simple paths (igraph returns an empty path, not an error,
when the target is unreachable).
-/

/-- Shallow embedding of an `igraph.Graph`: a vertex count and the edge list
exactly as `ig.Graph(n_vertices, edges)` receives it in `main`. -/
structure IGraph where
  nv : Nat
  edges : List (Nat × Nat)
deriving DecidableEq, Repr, Inhabited

/-- Embeds `g.neighbors(v)`: the opposite endpoint of every edge incident to
`v`, in edge order. -/
def IGraph.neighbors (g : IGraph) (v : Nat) : List Nat :=
  g.edges.filterMap (fun e =>
    if e.1 = v then some e.2 else if e.2 = v then some e.1 else none)

/-- All endpoints occurring in the edge list (used only as a termination
measure for the path enumerator). -/
def IGraph.vertList (g : IGraph) : List Nat :=
  g.edges.flatMap (fun e => [e.1, e.2])

/-- Adjacency relation of the embedded graph. -/
def IGraph.adj (g : IGraph) (u v : Nat) : Prop :=
  v ∈ g.neighbors u

instance (g : IGraph) (u v : Nat) : Decidable (g.adj u v) := by
  unfold IGraph.adj; infer_instance

theorem mem_vertList_of_mem_neighbors {g : IGraph} {v c : Nat}
    (h : c ∈ g.neighbors v) : c ∈ g.vertList := by
  rcases List.mem_filterMap.mp h with ⟨e, he, hfe⟩
  rcases e with ⟨a, b⟩
  unfold IGraph.vertList
  rw [List.mem_flatMap]
  refine ⟨(a, b), he, ?_⟩
  by_cases h1 : a = v
  · simp [h1] at hfe
    simp [hfe]
  · by_cases h2 : b = v
    · simp [h1, h2] at hfe
      simp [hfe]
    · simp [h1, h2] at hfe

theorem length_filter_le_of_imp (l : List Nat) (p q : Nat → Bool)
    (h : ∀ v, q v = true → p v = true) :
    (l.filter q).length ≤ (l.filter p).length := by
  induction l with
  | nil => simp
  | cons a l ih =>
    rw [List.filter_cons, List.filter_cons]
    by_cases hq : q a = true
    · rw [if_pos hq, if_pos (h a hq)]
      simpa using ih
    · rw [if_neg hq]
      split
      · exact Nat.le_succ_of_le ih
      · exact ih

theorem length_filter_lt (l : List Nat) (p q : Nat → Bool)
    (h : ∀ v, q v = true → p v = true) (c : Nat) (hcl : c ∈ l)
    (hp : p c = true) (hq : q c = false) :
    (l.filter q).length < (l.filter p).length := by
  induction l with
  | nil => simp at hcl
  | cons a l ih =>
    rw [List.filter_cons, List.filter_cons]
    rcases List.mem_cons.mp hcl with rfl | hcl'
    · rw [if_pos hp, if_neg (by simp [hq])]
      exact Nat.lt_succ_of_le (length_filter_le_of_imp l p q h)
    · by_cases hqa : q a = true
      · rw [if_pos hqa, if_pos (h a hqa)]
        simpa using ih hcl'
      · rw [if_neg hqa]
        split
        · exact Nat.lt_succ_of_lt (ih hcl')
        · exact ih hcl'

theorem find_paths_dec (g : IGraph) (node_id : Nat) (path : List Nat) (c : Nat)
    (hmem : c ∈ g.neighbors node_id) (hnot : c ∉ path ++ [node_id]) :
    (g.vertList.filter (fun v => v ∉ (path ++ [node_id]) ++ [c])).length <
      (g.vertList.filter (fun v => v ∉ path ++ [node_id])).length := by
  apply length_filter_lt _ _ _ ?_ c (mem_vertList_of_mem_neighbors hmem)
  · simpa using hnot
  · simp
  · intro v hv
    simp only [decide_eq_true_eq, List.mem_append] at hv ⊢
    tauto

/-- Embeds `find_paths` from src/main.py: depth-first enumeration of simple
paths.  The Python default argument `path=None` corresponds to the initial
call with `path = []` (both make the first extended path `[node_id]`); the
current path is extended, returned as soon as its length hits `maxlen`, and
otherwise emitted together with all extensions into neighbors not already on
the path. -/
def find_paths (g : IGraph) (node_id : Nat) (maxlen : Nat) (path : List Nat) :
    List (List Nat) :=
  if (path ++ [node_id]).length = maxlen then
    [path ++ [node_id]]
  else
    (path ++ [node_id]) ::
      (((g.neighbors node_id).filter (fun c => c ∉ path ++ [node_id])).attach.flatMap
        (fun c => find_paths g c.1 maxlen (path ++ [node_id])))
termination_by (g.vertList.filter (fun v => v ∉ path ++ [node_id])).length
decreasing_by
  rcases List.mem_filter.mp c.2 with ⟨hmem, hnot⟩
  exact find_paths_dec g node_id path c.1 hmem (by simpa using hnot)

theorem attach_flatMap_eq (l : List Nat) (f : Nat → List (List Nat)) :
    l.attach.flatMap (fun c => f c.1) = l.flatMap f := by
  simp only [List.flatMap]
  conv_rhs => rw [← List.attach_map_val l f]

/-- The recursion of `find_paths` without the `attach` bookkeeping. -/
theorem find_paths_eq (g : IGraph) (node_id : Nat) (maxlen : Nat) (path : List Nat) :
    find_paths g node_id maxlen path =
      if (path ++ [node_id]).length = maxlen then
        [path ++ [node_id]]
      else
        (path ++ [node_id]) ::
          (((g.neighbors node_id).filter (fun c => c ∉ path ++ [node_id])).flatMap
            (fun c => find_paths g c maxlen (path ++ [node_id]))) := by
  rw [find_paths]
  split
  · rfl
  · rw [attach_flatMap_eq _ (fun c => find_paths g c maxlen (path ++ [node_id]))]

/-- The top-level call `find_paths(g, node_id, maxlen)` of the Python source
(its `path` defaulted to `None`). -/
def find_paths_from (g : IGraph) (start : Nat) (maxlen : Nat) : List (List Nat) :=
  find_paths g start maxlen []

theorem find_paths_sound (g : IGraph) (node_id : Nat) (maxlen : Nat) (path : List Nat) :
    ∀ p ∈ find_paths g node_id maxlen path,
      (∃ ext, p = (path ++ [node_id]) ++ ext) ∧
      ((path ++ [node_id]).Nodup → p.Nodup) ∧
      (List.Chain' g.adj (path ++ [node_id]) → List.Chain' g.adj p) ∧
      ((path ++ [node_id]).length ≤ maxlen → p.length ≤ maxlen) := by
  intro p hp
  rw [find_paths_eq] at hp
  by_cases hl : (path ++ [node_id]).length = maxlen
  · rw [if_pos hl] at hp
    have hp' : p = path ++ [node_id] := by simpa using hp
    subst hp'
    exact ⟨⟨[], by simp⟩, fun h => h, fun h => h, fun h => h⟩
  · rw [if_neg hl] at hp
    rcases List.mem_cons.mp hp with rfl | hp'
    · exact ⟨⟨[], by simp⟩, fun h => h, fun h => h, fun h => h⟩
    · rcases List.mem_flatMap.mp hp' with ⟨c, hc, hpc⟩
      rcases List.mem_filter.mp hc with ⟨hcnb, hcnot⟩
      have hcnot' : c ∉ path ++ [node_id] := by simpa using hcnot
      have IH := find_paths_sound g c maxlen (path ++ [node_id]) p hpc
      refine ⟨?_, ?_, ?_, ?_⟩
      · rcases IH.1 with ⟨ext, hext⟩
        exact ⟨[c] ++ ext, by simpa [List.append_assoc] using hext⟩
      · intro hnd
        apply IH.2.1
        rw [List.nodup_append]
        exact ⟨hnd, List.nodup_singleton c, List.disjoint_singleton.mpr hcnot'⟩
      · intro hch
        apply IH.2.2.1
        rw [List.chain'_append]
        refine ⟨hch, by simp, ?_⟩
        intro x hx y hy
        rw [List.getLast?_concat] at hx
        simp only [List.head?_cons, Option.mem_def, Option.some.injEq] at hx hy
        subst hx; subst hy
        exact hcnb
      · intro hle
        apply IH.2.2.2
        have : (path ++ [node_id]).length < maxlen := lt_of_le_of_ne hle hl
        simpa using this
termination_by (g.vertList.filter (fun v => v ∉ path ++ [node_id])).length
decreasing_by
  exact find_paths_dec g node_id path c hcnb hcnot'

theorem find_paths_complete (g : IGraph) (maxlen : Nat) :
    ∀ (ext : List Nat) (node_id : Nat) (path : List Nat),
      List.Chain g.adj node_id ext →
      ((path ++ [node_id]) ++ ext).Nodup →
      (maxlen = 0 ∨ ((path ++ [node_id]) ++ ext).length ≤ maxlen) →
      ((path ++ [node_id]) ++ ext) ∈ find_paths g node_id maxlen path := by
  intro ext
  induction ext with
  | nil =>
    intro node_id path _ _ _
    rw [find_paths_eq]
    by_cases hl : (path ++ [node_id]).length = maxlen
    · rw [if_pos hl]; simp
    · rw [if_neg hl]; simp
  | cons c ext ih =>
    intro node_id path hch hnd hlen
    have hadj : g.adj node_id c := (List.chain_cons.mp hch).1
    have hch' : List.Chain g.adj c ext := (List.chain_cons.mp hch).2
    have hcnot : c ∉ path ++ [node_id] :=
      fun hc => (List.nodup_append.mp hnd).2.2 hc (List.mem_cons_self c ext)
    have hne : (path ++ [node_id]).length ≠ maxlen := by
      rcases hlen with h0 | hle
      · subst h0; simp
      · simp only [List.length_append, List.length_cons, List.length_singleton] at hle ⊢
        omega
    rw [find_paths_eq, if_neg hne]
    apply List.mem_cons_of_mem
    rw [List.mem_flatMap]
    refine ⟨c, ?_, ?_⟩
    · rw [List.mem_filter]
      exact ⟨hadj, by simpa using hcnot⟩
    · have harr : ((path ++ [node_id]) ++ [c]) ++ ext = (path ++ [node_id]) ++ (c :: ext) := by
        simp
      have := ih c (path ++ [node_id]) hch'
        (by rw [harr]; exact hnd)
        (by rcases hlen with h0 | hle
            · exact Or.inl h0
            · exact Or.inr (by rw [harr]; exact hle))
      rw [harr] at this
      exact this

/-- Embeds the loop body of `dedup_paths`: `seen` is the running
`path_set_list` of vertex sets already kept (Python compares `set(path)`
values, embedded as `Finset` equality). -/
def dedup_go (seen : List (Finset Nat)) : List (List Nat) → List (List Nat)
  | [] => []
  | p :: rest =>
    if p.length > 1 then
      if p.toFinset ∈ seen then dedup_go seen rest
      else p :: dedup_go (p.toFinset :: seen) rest
    else dedup_go seen rest

/-- Embeds `dedup_paths` from src/main.py: keeps the first path encountered
with each vertex set, discarding paths of length at most one. -/
def dedup_paths (paths : List (List Nat)) : List (List Nat) :=
  dedup_go [] paths

/-- Embeds the triangular-number table `sums = [1, 3, 6, 10, 15, 21, 28, 36]`
of `get_max_pathlen`. -/
def sums : List Nat := [1, 3, 6, 10, 15, 21, 28, 36]

/-- The k-th triangular number `k(k+1)/2` (the spec's `triangular`). -/
def triangular (k : Nat) : Nat := k * (k + 1) / 2

/-- Embeds `get_max_pathlen` from src/main.py:
`next(x for x in range(len(sums)) if sums[x] > target) + 1`.  Python's
`next` on an exhausted generator raises `StopIteration`; that failure is
embedded as `none`. -/
def get_max_pathlen (target : Nat) : Option Nat :=
  ((List.range sums.length).find? (fun x => target < sums.getD x 0)).map (· + 1)

/-- Embeds the igraph `g.es.select(_between=...)` lookup (also what igraph's
shortest-path routine reports as the edge between two path vertices): the
index of the first edge joining `u` and `v`, if any. -/
def edgeBetween (g : IGraph) (u v : Nat) : Option Nat :=
  g.edges.findIdx? (fun e => (e.1 = u ∧ e.2 = v) ∨ (e.1 = v ∧ e.2 = u))

/-- Edge ids along a vertex path (the `epath` view igraph returns). -/
def pathEdges (g : IGraph) (p : List Nat) : List Nat :=
  (p.zip p.tail).filterMap (fun uv => edgeBetween g uv.1 uv.2)

/-- Total weight of an edge-id path under a weight list (edge id `e` carries
`wts[e]`, the value the callback writes into `es["weight"]`). -/
def pathWeight (wts : List Nat) (epath : List Nat) : Nat :=
  (epath.map (fun e => wts.getD e 0)).sum

/-- First-encountered minimum of a list under a cost function: the
deterministic tie-break of the modelled shortest-path search. -/
def selectMin (cost : List Nat → Nat) : List (List Nat) → Option (List Nat)
  | [] => none
  | p :: ps => some (ps.foldl (fun best q => if cost q < cost best then q else best) p)

/-- Models the external igraph call
`g.get_shortest_paths(3, to=17, weights=..., output="epath")` of the
solution callback: among all simple paths from vertex 3 that end at vertex
17 (the full enumeration `find_paths` performs when `maxlen` never fires),
a minimum-weight one is selected deterministically and returned as its edge
ids; `none` models the empty path list igraph yields when 17 is
unreachable. -/
def getShortestEPath (g : IGraph) (wts : List Nat) : Option (List Nat) :=
  ((selectMin (fun p => pathWeight wts (pathEdges g p))
      ((find_paths g 3 0 []).filter (fun p => p.getLast? = some 17))).map
    (fun p => pathEdges g p))

/-- Embeds the message construction of `on_solution_callback` (src/main.py
lines 38–45): each edge on the returned shortest path contributes
`chr(weight + 64)`; an unreachable target leaves the loop body unexecuted
and the message empty. -/
def decodeMsg (g : IGraph) (wts : List Nat) : String :=
  match getShortestEPath g wts with
  | none => ""
  | some epath => String.mk (epath.map (fun e => Char.ofNat (wts.getD e 0 + 64)))

/-- State of a `SolutionPrinter`: the private graph copy (topology), the
`es["weight"]` attribute it mutates, and the solution counter. -/
structure PrinterState where
  g : IGraph
  weights : Option (List Nat)
  count : Nat

/-- Embeds `SolutionPrinter.on_solution_callback` for one emitted solution
with values `vals`: bumps the counter, overwrites the private copy's edge
weights with `vals`, and decodes the message from the freshly written
weights. -/
def on_solution_callback (s : PrinterState) (vals : List Nat) : PrinterState × String :=
  ({ s with count := s.count + 1, weights := some vals }, decodeMsg s.g vals)

/-- Reachability by a simple path in the embedded graph. -/
def reachable (g : IGraph) (s t : Nat) : Prop :=
  ∃ p : List Nat, p.head? = some s ∧ p.getLast? = some t ∧ p.Nodup ∧ List.Chain' g.adj p

/-- A weighted igraph object on the Python heap: topology plus the optional
`es["weight"]` attribute. -/
structure WGraph where
  graph : IGraph
  weights : Option (List Nat)
deriving DecidableEq, Repr, Inhabited

/-- Embeds `SolutionPrinter.__init__`: `self._g = g.copy()` allocates a new
graph object (a fresh slot at the end of the heap, modelled as a list of
graph objects) holding a copy of the caller's graph `h[gid]`; the pair is the
new heap and the id of the private copy. -/
def printer_init (h : List WGraph) (gid : Nat) : List WGraph × Nat :=
  (h ++ [h.getD gid default], h.length)

/-- Embeds the mutation `self._g.es["weight"] = list(...)` of one callback:
overwrites the weight attribute of the printer's own graph object. -/
def callback_write (h : List WGraph) (pid : Nat) (vals : List Nat) : List WGraph :=
  h.set pid { h.getD pid default with weights := some vals }

/-- The heap after a whole run: one weight write per emitted solution. -/
def run_callbacks (h : List WGraph) (pid : Nat) (valss : List (List Nat)) : List WGraph :=
  valss.foldl (fun h vals => callback_write h pid vals) h

/-- The edge list of the Bug Byte graph exactly as `main` declares it. -/
def mainEdges : List (Nat × Nat) :=
  [(0, 1), (0, 2), (1, 3), (2, 3), (2, 7), (3, 8), (4, 7), (5, 9), (6, 8),
   (7, 9), (8, 9), (7, 10), (8, 11), (9, 10), (9, 11), (10, 13), (11, 14),
   (10, 12), (10, 15), (11, 16), (13, 15), (13, 16), (15, 17), (16, 17)]

/-- The puzzle graph `ig.Graph(18, edges)` of `main`. -/
def mainGraph : IGraph := ⟨18, mainEdges⟩

/-- The variable domains of `main`: `model.NewIntVar(1, 24, ...)` for each of
the 24 edge-weight variables, so every emitted solution value lies in 1..24. -/
def edge_weight_domain (a : Nat → Nat) : Prop :=
  ∀ i, i < 24 → 1 ≤ a i ∧ a i ≤ 24

/-- The `model.AddAllDifferent(edge_weights)` constraint of `main`. -/
def all_different (a : Nat → Nat) : Prop :=
  ∀ i, i < 24 → ∀ j, j < 24 → i ≠ j → a i ≠ a j

theorem mainGraph_edge_count : mainGraph.edges.length = 24 := by decide

/-- C1: for every solution emitted by the solver — it satisfies the model's
variable domains (1..24) and `AddAllDifferent` — the edge-id → weight mapping
is a bijection onto {1..24}: all 24 weights are in range, pairwise distinct,
and each value of 1..24 is taken by exactly one edge. -/
theorem solution_weights_bijection (a : Nat → Nat)
    (hdom : edge_weight_domain a) (hdiff : all_different a) :
    (∀ i, i < 24 → 1 ≤ a i ∧ a i ≤ 24) ∧
    (∀ i, i < 24 → ∀ j, j < 24 → i ≠ j → a i ≠ a j) ∧
    (∀ v, 1 ≤ v → v ≤ 24 → ∃! i, i < 24 ∧ a i = v) := by
  refine ⟨hdom, hdiff, ?_⟩
  intro v hv1 hv2
  have hinj : Function.Injective
      (fun i : Fin 24 => (⟨a i - 1, by have := hdom i i.2; omega⟩ : Fin 24)) := by
    intro i j hij
    simp only [Fin.mk.injEq] at hij
    by_contra hne
    have hiv := hdom i.1 i.2
    have hjv := hdom j.1 j.2
    exact hdiff i.1 i.2 j.1 j.2 (fun h => hne (Fin.ext h)) (by omega)
  obtain ⟨i, hi⟩ := Finite.injective_iff_surjective.mp hinj ⟨v - 1, by omega⟩
  simp only [Fin.mk.injEq] at hi
  have hai : a i.1 = v := by have := hdom i.1 i.2; omega
  refine ⟨i.1, ⟨i.2, hai⟩, ?_⟩
  rintro y ⟨hy, hay⟩
  by_contra hne
  exact hdiff y hy i.1 i.2 hne (by rw [hay, hai])

/-- Witness for C1 at the concrete assignment `i ↦ i + 1`. -/
theorem solution_weights_bijection_witness :
    edge_weight_domain (fun i => i + 1) ∧ all_different (fun i => i + 1) ∧
      (∀ v, 1 ≤ v → v ≤ 24 → ∃! i, i < 24 ∧ (fun i => i + 1) i = v) := by
  have h1 : edge_weight_domain (fun i => i + 1) := by intro i hi; dsimp only; omega
  have h2 : all_different (fun i => i + 1) := by intro i _ j _ hne; simpa using hne
  exact ⟨h1, h2, (solution_weights_bijection _ h1 h2).2.2⟩

/-- C3 (amended): for every target below 36 — the last entry of the
hard-coded triangular table — `get_max_pathlen` returns precisely the
smallest number whose triangular number exceeds the target (equivalently,
one more than the largest `k` with `triangular k ≤ target`). -/
theorem get_max_pathlen_least (t : Nat) (ht : t < 36) :
    get_max_pathlen t = some ((get_max_pathlen t).getD 0) ∧
    t < triangular ((get_max_pathlen t).getD 0) ∧
    (∀ m, m < (get_max_pathlen t).getD 0 → triangular m ≤ t) := by
  revert ht
  revert t
  decide

/-- Witness for C3 (amended) at the documented example target 19
(max path length 6, since `triangular 5 = 15 ≤ 19 < 21 = triangular 6`). -/
theorem get_max_pathlen_least_witness :
    19 < 36 ∧
    (get_max_pathlen 19 = some ((get_max_pathlen 19).getD 0) ∧
     19 < triangular ((get_max_pathlen 19).getD 0) ∧
     (∀ m, m < (get_max_pathlen 19).getD 0 → triangular m ≤ 19)) :=
  ⟨by decide, get_max_pathlen_least 19 (by decide)⟩

/-- Counterexample to C3 as stated: at target 36 the claim demands the
smallest `m` with `triangular m > 36` (namely 9), but the table search is
exhausted and the call fails (`StopIteration`, embedded as `none`). -/
theorem get_max_pathlen_least_cex :
    get_max_pathlen 36 = none ∧ triangular 8 ≤ 36 ∧ 36 < triangular 9 := by
  decide

/-- C4 (amended): on targets below 36 — the reach of the hard-coded table —
`get_max_pathlen` is monotonically non-decreasing and its value `r`
satisfies the sandwich `triangular (r - 1) ≤ target < triangular r`. -/
theorem get_max_pathlen_mono_sandwich (t : Nat) (ht : t < 36) :
    (∀ s, s ≤ t → (get_max_pathlen s).getD 0 ≤ (get_max_pathlen t).getD 0) ∧
    get_max_pathlen t = some ((get_max_pathlen t).getD 0) ∧
    triangular ((get_max_pathlen t).getD 0 - 1) ≤ t ∧
    t < triangular ((get_max_pathlen t).getD 0) := by
  revert ht
  revert t
  decide

/-- Witness for C4 (amended) at target 31, the largest path constraint of
the puzzle. -/
theorem get_max_pathlen_mono_sandwich_witness :
    31 < 36 ∧
    ((∀ s, s ≤ 31 → (get_max_pathlen s).getD 0 ≤ (get_max_pathlen 31).getD 0) ∧
     get_max_pathlen 31 = some ((get_max_pathlen 31).getD 0) ∧
     triangular ((get_max_pathlen 31).getD 0 - 1) ≤ 31 ∧
     31 < triangular ((get_max_pathlen 31).getD 0)) :=
  ⟨by decide, get_max_pathlen_mono_sandwich 31 (by decide)⟩

/-- Counterexample to C4 as stated: at target 40 the function returns no
value at all (`StopIteration`, embedded as `none`), so no returned value
satisfies the sandwich. -/
theorem get_max_pathlen_mono_sandwich_cex :
    get_max_pathlen 40 = none ∧
    ¬ (triangular ((get_max_pathlen 40).getD 0 - 1) ≤ 40 ∧
       40 < triangular ((get_max_pathlen 40).getD 0)) := by
  decide

/-- C10: `get_max_pathlen` is a partial function: its triangular table stops
at 36, so it returns a bound exactly for targets below 36 and fails (Python
`StopIteration`, embedded as `none`) for every target from 36 up. -/
theorem get_max_pathlen_domain_limit (t : Nat) :
    (t < 36 → (get_max_pathlen t).isSome = true) ∧
    (36 ≤ t → get_max_pathlen t = none) := by
  refine ⟨fun ht => ?_, fun ht => ?_⟩
  · have h : ∀ s, s < 36 → (get_max_pathlen s).isSome = true := by decide
    exact h t ht
  · unfold get_max_pathlen
    rw [Option.map_eq_none', List.find?_eq_none]
    intro x hx
    have hb : sums.getD x 0 ≤ 36 := by
      by_cases hx8 : x < 8
      · interval_cases x <;> simp [sums]
      · rw [List.getD_eq_default _ _ (by simp [sums]; omega)]
        omega
    simp only [decide_eq_true_eq]
    omega

theorem dedup_go_not_seen :
    ∀ (l : List (List Nat)) (seen : List (Finset Nat)) (p : List Nat),
      p ∈ dedup_go seen l → p.toFinset ∉ seen := by
  intro l
  induction l with
  | nil => intro seen p hp; simp [dedup_go] at hp
  | cons h rest ih =>
    intro seen p hp
    rw [dedup_go] at hp
    by_cases hlen : h.length > 1
    · rw [if_pos hlen] at hp
      by_cases hseen : h.toFinset ∈ seen
      · rw [if_pos hseen] at hp
        exact ih seen p hp
      · rw [if_neg hseen] at hp
        rcases List.mem_cons.mp hp with rfl | hp'
        · exact hseen
        · have := ih _ p hp'
          intro hc
          exact this (List.mem_cons_of_mem _ hc)
    · rw [if_neg hlen] at hp
      exact ih seen p hp

theorem dedup_go_mem_iff :
    ∀ (l : List (List Nat)) (seen : List (Finset Nat)) (p : List Nat),
      p ∈ dedup_go seen l ↔
        ∃ l1 l2, l = l1 ++ p :: l2 ∧ 1 < p.length ∧ p.toFinset ∉ seen ∧
          ∀ q ∈ l1, q.length ≤ 1 ∨ q.toFinset ≠ p.toFinset := by
  intro l
  induction l with
  | nil =>
    intro seen p
    simp [dedup_go]
  | cons h rest ih =>
    intro seen p
    rw [dedup_go]
    constructor
    · intro hp
      by_cases hlen : h.length > 1
      · rw [if_pos hlen] at hp
        by_cases hseen : h.toFinset ∈ seen
        · rw [if_pos hseen] at hp
          rcases (ih seen p).mp hp with ⟨l1, l2, hdec, hplen, hpns, hfirst⟩
          refine ⟨h :: l1, l2, by rw [hdec]; rfl, hplen, hpns, ?_⟩
          intro q hq
          rcases List.mem_cons.mp hq with rfl | hq'
          · right
            intro he
            exact hpns (he ▸ hseen)
          · exact hfirst q hq'
        · rw [if_neg hseen] at hp
          rcases List.mem_cons.mp hp with rfl | hp'
          · exact ⟨[], rest, rfl, hlen, hseen, by simp⟩
          · rcases (ih _ p).mp hp' with ⟨l1, l2, hdec, hplen, hpns, hfirst⟩
            have hpns' : p.toFinset ∉ seen := fun hc => hpns (List.mem_cons_of_mem _ hc)
            have hphne : p.toFinset ≠ h.toFinset := fun hc => hpns (hc ▸ List.mem_cons_self _ _)
            refine ⟨h :: l1, l2, by rw [hdec]; rfl, hplen, hpns', ?_⟩
            intro q hq
            rcases List.mem_cons.mp hq with rfl | hq'
            · exact Or.inr (fun hc => hphne hc.symm)
            · exact hfirst q hq'
      · rw [if_neg hlen] at hp
        rcases (ih seen p).mp hp with ⟨l1, l2, hdec, hplen, hpns, hfirst⟩
        refine ⟨h :: l1, l2, by rw [hdec]; rfl, hplen, hpns, ?_⟩
        intro q hq
        rcases List.mem_cons.mp hq with rfl | hq'
        · exact Or.inl (by omega)
        · exact hfirst q hq'
    · rintro ⟨l1, l2, hdec, hplen, hpns, hfirst⟩
      cases l1 with
      | nil =>
        simp only [List.nil_append] at hdec
        injection hdec with hph hrest
        subst hph
        rw [if_pos hplen, if_neg hpns]
        exact List.mem_cons_self _ _
      | cons q l1' =>
        simp only [List.cons_append] at hdec
        injection hdec with hq hrest
        subst hq
        rcases hfirst h (List.mem_cons_self _ _) with hshort | hne
        · rw [if_neg (by omega)]
          exact (ih seen p).mpr ⟨l1', l2, hrest, hplen, hpns,
            fun q' hq' => hfirst q' (List.mem_cons_of_mem _ hq')⟩
        · by_cases hlen : h.length > 1
          · rw [if_pos hlen]
            by_cases hseen : h.toFinset ∈ seen
            · rw [if_pos hseen]
              exact (ih seen p).mpr ⟨l1', l2, hrest, hplen, hpns,
                fun q' hq' => hfirst q' (List.mem_cons_of_mem _ hq')⟩
            · rw [if_neg hseen]
              apply List.mem_cons_of_mem
              refine (ih (h.toFinset :: seen) p).mpr ⟨l1', l2, hrest, hplen, ?_,
                fun q' hq' => hfirst q' (List.mem_cons_of_mem _ hq')⟩
              intro hc
              rcases List.mem_cons.mp hc with hc' | hc'
              · exact hne hc'.symm
              · exact hpns hc'
          · rw [if_neg hlen]
            exact (ih seen p).mpr ⟨l1', l2, hrest, hplen, hpns,
              fun q' hq' => hfirst q' (List.mem_cons_of_mem _ hq')⟩

theorem dedup_go_pairwise :
    ∀ (l : List (List Nat)) (seen : List (Finset Nat)),
      (dedup_go seen l).Pairwise (fun p q => p.toFinset ≠ q.toFinset) := by
  intro l
  induction l with
  | nil => intro seen; simp [dedup_go]
  | cons h rest ih =>
    intro seen
    rw [dedup_go]
    by_cases hlen : h.length > 1
    · rw [if_pos hlen]
      by_cases hseen : h.toFinset ∈ seen
      · rw [if_pos hseen]; exact ih seen
      · rw [if_neg hseen]
        refine List.Pairwise.cons ?_ (ih (h.toFinset :: seen))
        intro q hq
        have := dedup_go_not_seen rest (h.toFinset :: seen) q hq
        intro hc
        exact this (hc ▸ List.mem_cons_self _ _)
    · rw [if_neg hlen]; exact ih seen

/-- C6: `dedup_paths` keeps only paths with more than one vertex (every
length-1 path is discarded), no two kept paths have the same vertex set, and
a path is kept exactly when it is the first entry of the input whose vertex
set it has (among entries long enough to survive). -/
theorem dedup_paths_spec (paths : List (List Nat)) :
    (∀ p ∈ dedup_paths paths, 1 < p.length) ∧
    (dedup_paths paths).Pairwise (fun p q => p.toFinset ≠ q.toFinset) ∧
    (∀ p, p ∈ dedup_paths paths ↔
      ∃ l1 l2, paths = l1 ++ p :: l2 ∧ 1 < p.length ∧
        ∀ q ∈ l1, q.length ≤ 1 ∨ q.toFinset ≠ p.toFinset) := by
  refine ⟨?_, dedup_go_pairwise paths [], ?_⟩
  · intro p hp
    rcases (dedup_go_mem_iff paths [] p).mp hp with ⟨_, _, _, hlen, _, _⟩
    exact hlen
  · intro p
    rw [dedup_paths, dedup_go_mem_iff]
    constructor
    · rintro ⟨l1, l2, hdec, hlen, _, hfirst⟩
      exact ⟨l1, l2, hdec, hlen, hfirst⟩
    · rintro ⟨l1, l2, hdec, hlen, hfirst⟩
      exact ⟨l1, l2, hdec, hlen, by simp, hfirst⟩

/-- A one-vertex graph with no edges, used for concrete instances. -/
def trivGraph : IGraph := ⟨1, []⟩

/-- C5 (amended): for every graph, start vertex and bound `maxlen ≥ 1` (the
bound is ≥ 1 whenever it comes from `get_max_pathlen`), `find_paths` returns
exactly the simple paths beginning at `start` with between 1 and `maxlen`
vertices: every returned path starts at `start`, repeats no vertex, walks
along edges, and has at most `maxlen` vertices; and conversely every such
simple path — including every intermediate prefix down to the length-1
path — is returned. -/
theorem find_paths_characterization (g : IGraph) (start maxlen : Nat)
    (hml : 1 ≤ maxlen) :
    (∀ p ∈ find_paths_from g start maxlen,
        p.head? = some start ∧ p.Nodup ∧ List.Chain' g.adj p ∧
        1 ≤ p.length ∧ p.length ≤ maxlen) ∧
    (∀ p, p.head? = some start → p.Nodup → List.Chain' g.adj p →
        p.length ≤ maxlen → p ∈ find_paths_from g start maxlen) := by
  constructor
  · intro p hp
    have hs := find_paths_sound g start maxlen [] p (by simpa [find_paths_from] using hp)
    simp only [List.nil_append] at hs
    rcases hs.1 with ⟨ext, rfl⟩
    refine ⟨by simp, hs.2.1 (List.nodup_singleton start), hs.2.2.1 (by simp),
      by simp, hs.2.2.2 (by simpa using hml)⟩
  · intro p hh hnd hch hlen
    cases p with
    | nil => simp at hh
    | cons a tail =>
      have ha : a = start := by simpa using hh
      subst ha
      have := find_paths_complete g maxlen tail a []
        hch (by simpa using hnd) (Or.inr (by simpa using hlen))
      simpa [find_paths_from] using this

/-- Witness for C5 (amended) on the one-vertex graph with bound 1. -/
theorem find_paths_characterization_witness :
    1 ≤ 1 ∧
    ((∀ p ∈ find_paths_from trivGraph 0 1,
        p.head? = some 0 ∧ p.Nodup ∧ List.Chain' trivGraph.adj p ∧
        1 ≤ p.length ∧ p.length ≤ 1) ∧
     (∀ p, p.head? = some 0 → p.Nodup → List.Chain' trivGraph.adj p →
        p.length ≤ 1 → p ∈ find_paths_from trivGraph 0 1)) :=
  ⟨Nat.le_refl 1, find_paths_characterization trivGraph 0 1 (Nat.le_refl 1)⟩

/-- Counterexample to C5 as stated: with `maxNodes = 0` (the assert in the
source allows it) the length check never fires, so the enumeration returns
the one-vertex path even though the claim then demands paths of between 1
and 0 vertices, i.e. none at all. -/
theorem find_paths_maxlen_zero_cex :
    [0] ∈ find_paths_from trivGraph 0 0 ∧ ¬ ([0] : List Nat).length ≤ 0 := by
  constructor
  · rw [find_paths_from, find_paths_eq, if_neg (by decide)]
    exact List.mem_cons_self _ _
  · decide

/-- An 18-vertex graph with a single edge far from vertices 3 and 17, so the
decode source and target are disconnected. -/
def discGraph : IGraph := ⟨18, [(0, 1)]⟩

theorem discGraph_not_reachable : ¬ reachable discGraph 3 17 := by
  rintro ⟨p, hh, hl, _, hch⟩
  cases p with
  | nil => simp at hh
  | cons a tail =>
    have ha : a = 3 := by simpa using hh
    subst ha
    cases tail with
    | nil => simp at hl
    | cons b t =>
      have hadj : discGraph.adj 3 b := (List.chain'_cons.mp hch).1
      have hb : b ∈ discGraph.neighbors 3 := hadj
      have hn : discGraph.neighbors 3 = [] := by decide
      rw [hn] at hb
      simp at hb

/-- C2 (amended): if the decode source (vertex 3) and target (vertex 17) are
disconnected under an emitted assignment, decoding does not fail: the
modelled igraph shortest-path call yields no path and the callback produces
an empty decoded message, surfacing no error for that solution. -/
theorem decode_disconnected_empty (g : IGraph) (wts : List Nat)
    (h : ¬ reachable g 3 17) : decodeMsg g wts = "" := by
  cases hc : (find_paths g 3 0 []).filter (fun p => p.getLast? = some 17) with
  | nil =>
    have hsp : getShortestEPath g wts = none := by
      rw [getShortestEPath, hc]
      rfl
    unfold decodeMsg
    rw [hsp]
  | cons q rest =>
    exfalso
    have hq : q ∈ (find_paths g 3 0 []).filter (fun p => p.getLast? = some 17) :=
      hc ▸ List.mem_cons_self _ _
    rcases List.mem_filter.mp hq with ⟨hqm, hql⟩
    have hs := find_paths_sound g 3 0 [] q hqm
    rcases hs.1 with ⟨ext, rfl⟩
    exact h ⟨([] ++ [3]) ++ ext, by simp, by simpa using hql,
      hs.2.1 (by simp), hs.2.2.1 (by simp)⟩

/-- Witness for C2 (amended) on the concrete disconnected graph. -/
theorem decode_disconnected_empty_witness :
    ¬ reachable discGraph 3 17 ∧ decodeMsg discGraph [5] = "" :=
  ⟨discGraph_not_reachable,
    decode_disconnected_empty discGraph [5] discGraph_not_reachable⟩

/-- Counterexample to C2 as stated: on a concrete assignment over a graph
where 3 and 17 are disconnected, the callback neither raises nor surfaces a
`NoPath` error — it produces exactly the empty decoded message the claim
rules out (igraph returns an empty path list entry for an unreachable
target). -/
theorem decode_nopath_cex :
    ¬ reachable discGraph 3 17 ∧ decodeMsg discGraph [7] = "" := by
  refine ⟨discGraph_not_reachable, ?_⟩
  have hfp : find_paths discGraph 3 0 [] = [[3]] := by
    rw [find_paths_eq, if_neg (by decide)]
    have hn : (discGraph.neighbors 3).filter
        (fun c => c ∉ ([] : List Nat) ++ [3]) = [] := by decide
    rw [hn]
    rfl
  have hsp : getShortestEPath discGraph [7] = none := by
    rw [getShortestEPath, hfp]
    rfl
  unfold decodeMsg
  rw [hsp]

/-- C7: decoding is deterministic and depends only on the graph topology and
the emitted assignment.  Running the decoding step a second time on the
state left by the first run (whose weight attribute was overwritten) yields
the same message, and any two printer states sharing the same private graph
decode the same assignment to the same message, whatever their counters or
previously written weights. -/
theorem decode_deterministic (s₁ s₂ : PrinterState) (vals : List Nat) :
    (on_solution_callback (on_solution_callback s₁ vals).1 vals).2 =
      (on_solution_callback s₁ vals).2 ∧
    (s₁.g = s₂.g →
      (on_solution_callback s₁ vals).2 = (on_solution_callback s₂ vals).2) := by
  refine ⟨rfl, fun h => ?_⟩
  simp only [on_solution_callback, h]

/-- The alphabet the claim maps weights into; `chr(w + 64)` lands in it for
weights 1..26. -/
def alphabet : List Char :=
  ['A', 'B', 'C', 'D', 'E', 'F', 'G', 'H', 'I', 'J', 'K', 'L', 'M',
   'N', 'O', 'P', 'Q', 'R', 'S', 'T', 'U', 'V', 'W', 'X', 'Y', 'Z']

theorem char_of_weight (w : Nat) (h1 : 1 ≤ w) (h2 : w ≤ 26) :
    Char.ofNat (w + 64) = alphabet.getD (w - 1) 'A' := by
  interval_cases w <;> decide

/-- C8: the decoded message is the concatenation, in path order, of
`alphabet[w - 1]` over the weights `w` of the edges on the computed shortest
path (weight 1 ↦ 'A', weight 2 ↦ 'B', …): `chr(w + 64)` coincides with
indexing the alphabet at `w - 1`. -/
theorem decode_symbol_mapping (g : IGraph) (wts : List Nat) (epath : List Nat)
    (hsp : getShortestEPath g wts = some epath)
    (hw : ∀ e ∈ epath, 1 ≤ wts.getD e 0 ∧ wts.getD e 0 ≤ 26) :
    decodeMsg g wts =
      String.mk (epath.map (fun e => alphabet.getD (wts.getD e 0 - 1) 'A')) := by
  unfold decodeMsg
  rw [hsp]
  show String.mk (epath.map (fun e => Char.ofNat (wts.getD e 0 + 64))) = _
  congr 1
  apply List.map_congr_left
  intro e he
  exact char_of_weight _ (hw e he).1 (hw e he).2

/-- An 18-vertex graph whose single edge joins the decode source 3 and
target 17 directly. -/
def lineGraph : IGraph := ⟨18, [(3, 17)]⟩

theorem lineGraph_epath : getShortestEPath lineGraph [1] = some [0] := by
  have hfp2 : find_paths lineGraph 17 0 [3] = [[3, 17]] := by
    rw [find_paths_eq, if_neg (by decide)]
    have hn : (lineGraph.neighbors 17).filter (fun c => c ∉ [3] ++ [17]) = [] := by
      decide
    rw [hn]
    rfl
  have hfp1 : find_paths lineGraph 3 0 [] = [[3], [3, 17]] := by
    rw [find_paths_eq]
    simp only [List.nil_append]
    rw [if_neg (by decide)]
    have hn : (lineGraph.neighbors 3).filter (fun c => c ∉ [3]) = [17] := by decide
    rw [hn]
    simp only [List.flatMap_cons, List.flatMap_nil, List.append_nil]
    rw [hfp2]
  rw [getShortestEPath, hfp1]
  rfl

/-- Witness for C8 on the one-edge graph from 3 to 17 with weight 1: the
decoded message is "A". -/
theorem decode_symbol_mapping_witness :
    getShortestEPath lineGraph [1] = some [0] ∧
    (∀ e ∈ ([0] : List Nat), 1 ≤ ([1] : List Nat).getD e 0 ∧ ([1] : List Nat).getD e 0 ≤ 26) ∧
    decodeMsg lineGraph [1] =
      String.mk (([0] : List Nat).map
        (fun e => alphabet.getD (([1] : List Nat).getD e 0 - 1) 'A')) :=
  ⟨lineGraph_epath, by decide,
    decode_symbol_mapping lineGraph [1] [0] lineGraph_epath (by decide)⟩

/-- C9: the caller's graph is never mutated after the printer is built.
`__init__` stores a private copy (a fresh heap object), and every callback's
weight write goes only to that copy, so after any run of emitted solutions
the original heap entry — vertices, edges and attributes — is unchanged. -/
theorem printer_frame (h : List WGraph) (gid : Nat) (valss : List (List Nat))
    (hgid : gid < h.length) :
    (run_callbacks (printer_init h gid).1 (printer_init h gid).2 valss)[gid]? =
      h[gid]? := by
  have key : ∀ (vs : List (List Nat)) (h' : List WGraph),
      (run_callbacks h' h.length vs)[gid]? = h'[gid]? := by
    intro vs
    induction vs with
    | nil => intro h'; rfl
    | cons v vs ih =>
      intro h'
      have step : run_callbacks h' h.length (v :: vs) =
          run_callbacks (callback_write h' h.length v) h.length vs := rfl
      rw [step, ih]
      rw [callback_write]
      exact List.getElem?_set_ne (by omega)
  show (run_callbacks (h ++ [h.getD gid default]) h.length valss)[gid]? = h[gid]?
  rw [key]
  rw [List.getElem?_append, if_pos hgid]

/-- Witness for C9: one heap cell, one callback writing weights [1, 2]. -/
theorem printer_frame_witness :
    0 < [({ graph := mainGraph, weights := none } : WGraph)].length ∧
    (run_callbacks (printer_init [({ graph := mainGraph, weights := none } : WGraph)] 0).1
        (printer_init [({ graph := mainGraph, weights := none } : WGraph)] 0).2
        [[1, 2]])[0]? =
      [({ graph := mainGraph, weights := none } : WGraph)][0]? :=
  ⟨by decide, printer_frame [⟨mainGraph, none⟩] 0 [[1, 2]] (by decide)⟩
